import Mathlib

/-!
Verification of the `langdist` character-level language model core
(`src/langdist/langmodel.py`) against its natural-language specification.

The Python code is shallowly embedded: pure value transformations become Lean
functions on `List Nat` (character IDs are small non-negative integers),
in-place list mutation is modelled by an explicit heap of cells, probabilities
are modelled over `ℚ`, and the stochastic parts of the sampler are modelled by
universally quantifying over an oracle supplying the sampled character IDs.
-/

namespace Langdist

/-! ### `CharLSTM._create_Y` (langmodel.py lines 327-339), value level

For each input sequence `x` the Python code builds `y = copy(x); y.append(border)`
and then does `x.insert(0, border)`.  At the level of values this sends each
`x` to the pair `(border :: x, x ++ [border])`. -/

/-- Value-level embedding of `CharLSTM._create_Y`: for each sequence `x` of the
batch, the label is `x ++ [border]` and the input becomes `border :: x`,
processed in batch order. -/
def create_Y (border : Nat) : List (List Nat) → List (List Nat) × List (List Nat)
  | [] => ([], [])
  | x :: rest =>
      let p := create_Y border rest
      ((border :: x) :: p.1, (x ++ [border]) :: p.2)

theorem create_Y_fst (border : Nat) (X : List (List Nat)) :
    (create_Y border X).1 = X.map fun x => border :: x := by
  induction X with
  | nil => rfl
  | cons x rest ih => simp [create_Y, ih]

theorem create_Y_snd (border : Nat) (X : List (List Nat)) :
    (create_Y border X).2 = X.map fun x => x ++ [border] := by
  induction X with
  | nil => rfl
  | cons x rest ih => simp [create_Y, ih]

/-! ### `CharLSTM._add_padding` (langmodel.py lines 302-325), value level -/

/-- Embedding of `max(len(x) for x in X)` (meaningful for non-empty `X`,
exactly as in the source where `max` over an empty batch would raise). -/
def max_len (X : List (List Nat)) : Nat := X.foldr (fun x m => max x.length m) 0

/-- Embedding of the `if not Y` branch of `CharLSTM._add_padding`: every
sequence is right-padded with `padId` up to the batch maximum length, and the
pre-padding lengths are returned. -/
def add_padding_noY (padId : Nat) (X : List (List Nat)) :
    List (List Nat) × List Nat :=
  (X.map fun x => x ++ List.replicate (max_len X - x.length) padId,
   X.map List.length)

/-- Embedding of the labelled branch of `CharLSTM._add_padding`: `X` and `Y`
are zipped, both members of a pair are right-padded with `padId` by
`max_len X - len x` (the pad length is computed from the input sequence `x`,
exactly as in the source), and the pre-padding lengths of the inputs are
returned. -/
def add_padding (padId : Nat) (X Y : List (List Nat)) :
    List (List Nat) × List (List Nat) × List Nat :=
  (X.map fun x => x ++ List.replicate (max_len X - x.length) padId,
   (X.zip Y).map fun xy => xy.2 ++ List.replicate (max_len X - xy.1.length) padId,
   X.map List.length)

theorem length_le_max_len {X : List (List Nat)} {x : List Nat} (hx : x ∈ X) :
    x.length ≤ max_len X := by
  induction X with
  | nil => cases hx
  | cons a rest ih =>
      rcases List.mem_cons.mp hx with h | h
      · rw [h]; exact le_max_left _ _
      · exact le_trans (ih h) (le_max_right _ _)

/-- Padding one sequence `z` up to length `m` with `padId`: the result has
length `m`, agrees with `z` before `z.length`, and is `padId` from `z.length`
on.  Shared helper for the two branches of `_add_padding`. -/
theorem padded_getD_spec (padId : Nat) (z : List Nat) (m : Nat) (hz : z.length ≤ m) :
    (z ++ List.replicate (m - z.length) padId).length = m ∧
    (∀ j, j < z.length → (z ++ List.replicate (m - z.length) padId).getD j 0 = z.getD j 0) ∧
    (∀ j, z.length ≤ j → j < m → (z ++ List.replicate (m - z.length) padId).getD j 0 = padId) := by
  have hlen : (z ++ List.replicate (m - z.length) padId).length = m := by
    simp only [List.length_append, List.length_replicate]
    omega
  refine ⟨hlen, ?_, ?_⟩
  · intro j hj
    have hj2 : j < (z ++ List.replicate (m - z.length) padId).length := by
      rw [hlen]; omega
    rw [List.getD_eq_getElem _ _ hj2, List.getElem_append_left hj, List.getD_eq_getElem _ _ hj]
  · intro j hj1 hj2
    have hj3 : j < (z ++ List.replicate (m - z.length) padId).length := by
      rw [hlen]; exact hj2
    rw [List.getD_eq_getElem _ _ hj3, List.getElem_append_right hj1, List.getElem_replicate]

/-- C1.  `_create_Y` sends each sequence `x` of the batch to a pair
`(x', y')` with `len x' = len y' = len x + 1`, `x'` the terminator followed by
`x` (so `x'[0]` is the terminator ID) and `y'` the characters of `x` followed
by the terminator (so `y'[-1]` is the terminator ID). -/
theorem create_Y_shifts_and_appends_border (border : Nat) (X : List (List Nat))
    (i : Nat) (hi : i < X.length) :
    (create_Y border X).1.length = X.length ∧
    (create_Y border X).2.length = X.length ∧
    (create_Y border X).1.getD i [] = border :: X.getD i [] ∧
    (create_Y border X).2.getD i [] = X.getD i [] ++ [border] ∧
    ((create_Y border X).1.getD i []).length = (X.getD i []).length + 1 ∧
    ((create_Y border X).2.getD i []).length = (X.getD i []).length + 1 ∧
    ((create_Y border X).1.getD i []).head? = some border ∧
    ((create_Y border X).2.getD i []).getLast? = some border := by
  have hm1 : i < ((X.map fun x => border :: x).length) := by simpa using hi
  have hm2 : i < ((X.map fun x => x ++ [border]).length) := by simpa using hi
  rw [create_Y_fst, create_Y_snd, List.getD_eq_getElem _ _ hm1, List.getD_eq_getElem _ _ hm2,
    List.getD_eq_getElem _ _ hi, List.getElem_map, List.getElem_map]
  refine ⟨by simp, by simp, rfl, rfl, by simp, by simp, rfl, List.getLast?_concat _⟩

/-- Witness for C1 at `border = 7`, `X = [[1, 2]]`, `i = 0`. -/
theorem create_Y_shifts_and_appends_border_witness :
    (create_Y 7 [[1, 2]]).1.length = ([[1, 2]] : List (List Nat)).length ∧
    (create_Y 7 [[1, 2]]).2.length = ([[1, 2]] : List (List Nat)).length ∧
    (create_Y 7 [[1, 2]]).1.getD 0 [] = 7 :: ([[1, 2]] : List (List Nat)).getD 0 [] ∧
    (create_Y 7 [[1, 2]]).2.getD 0 [] = ([[1, 2]] : List (List Nat)).getD 0 [] ++ [7] ∧
    ((create_Y 7 [[1, 2]]).1.getD 0 []).length = (([[1, 2]] : List (List Nat)).getD 0 []).length + 1 ∧
    ((create_Y 7 [[1, 2]]).2.getD 0 []).length = (([[1, 2]] : List (List Nat)).getD 0 []).length + 1 ∧
    ((create_Y 7 [[1, 2]]).1.getD 0 []).head? = some 7 ∧
    ((create_Y 7 [[1, 2]]).2.getD 0 []).getLast? = some 7 :=
  create_Y_shifts_and_appends_border 7 [[1, 2]] 0 (by decide)

/-- C2.  `_add_padding` pads every sequence (and its label when labels are
present and aligned, as the pipeline guarantees via the assertion in
`_create_Y`) with `padId` up to the batch maximum pre-padding length; the
returned true length of the i-th sequence is its pre-padding length, every
true length is at most the padded length, positions at or beyond the true
length hold the padding ID, and earlier positions are unchanged. -/
theorem add_padding_spec (padId : Nat) (X Y : List (List Nat)) (i : Nat)
    (hi : i < X.length) (hlen : Y.length = X.length)
    (halign : ∀ j, j < X.length → (Y.getD j []).length = (X.getD j []).length) :
    (add_padding_noY padId X).1.length = X.length ∧
    (add_padding_noY padId X).2.length = X.length ∧
    (add_padding_noY padId X).2.getD i 0 = (X.getD i []).length ∧
    ((add_padding_noY padId X).1.getD i []).length = max_len X ∧
    (X.getD i []).length ≤ max_len X ∧
    (∀ j, j < (X.getD i []).length →
      ((add_padding_noY padId X).1.getD i []).getD j 0 = (X.getD i []).getD j 0) ∧
    (∀ j, (X.getD i []).length ≤ j → j < max_len X →
      ((add_padding_noY padId X).1.getD i []).getD j 0 = padId) ∧
    (add_padding padId X Y).1 = (add_padding_noY padId X).1 ∧
    (add_padding padId X Y).2.2 = (add_padding_noY padId X).2 ∧
    (add_padding padId X Y).2.1.length = X.length ∧
    ((add_padding padId X Y).2.1.getD i []).length = max_len X ∧
    (∀ j, j < (X.getD i []).length →
      ((add_padding padId X Y).2.1.getD i []).getD j 0 = (Y.getD i []).getD j 0) ∧
    (∀ j, (X.getD i []).length ≤ j → j < max_len X →
      ((add_padding padId X Y).2.1.getD i []).getD j 0 = padId) := by
  have hxi_le : (X.getD i []).length ≤ max_len X := by
    rw [List.getD_eq_getElem _ _ hi]
    exact length_le_max_len (List.getElem_mem hi)
  have hx : (add_padding_noY padId X).1.getD i [] =
      X.getD i [] ++ List.replicate (max_len X - (X.getD i []).length) padId := by
    have hm : i < ((X.map fun x => x ++ List.replicate (max_len X - x.length) padId).length) := by
      simpa using hi
    show ((X.map fun x => x ++ List.replicate (max_len X - x.length) padId).getD i []) = _
    rw [List.getD_eq_getElem _ _ hm, List.getElem_map, List.getD_eq_getElem _ _ hi]
  have hiy : i < Y.length := by omega
  have hz : i < (X.zip Y).length := by
    rw [List.length_zip]; omega
  have hy : (add_padding padId X Y).2.1.getD i [] =
      Y.getD i [] ++ List.replicate (max_len X - (X.getD i []).length) padId := by
    have hm : i < (((X.zip Y).map fun xy =>
        xy.2 ++ List.replicate (max_len X - xy.1.length) padId).length) := by
      simpa using hz
    show (((X.zip Y).map fun xy =>
        xy.2 ++ List.replicate (max_len X - xy.1.length) padId).getD i []) = _
    rw [List.getD_eq_getElem _ _ hm, List.getElem_map, List.getElem_zip,
      List.getD_eq_getElem _ _ hi, List.getD_eq_getElem _ _ hiy]
  have hspecx := padded_getD_spec padId (X.getD i []) (max_len X) hxi_le
  have hyi_le : (Y.getD i []).length ≤ max_len X := by rw [halign i hi]; exact hxi_le
  have hspecy := padded_getD_spec padId (Y.getD i []) (max_len X) hyi_le
  have hcount : max_len X - (X.getD i []).length = max_len X - (Y.getD i []).length := by
    rw [halign i hi]
  rw [hcount] at hy
  refine ⟨by simp [add_padding_noY], by simp [add_padding_noY], ?_,
    by rw [hx]; exact hspecx.1, hxi_le,
    fun j hj => by rw [hx]; exact hspecx.2.1 j hj,
    fun j hj1 hj2 => by rw [hx]; exact hspecx.2.2 j hj1 hj2,
    rfl, rfl, by simp [add_padding, List.length_zip, hlen], by rw [hy]; exact hspecy.1,
    fun j hj => by
      rw [hy]
      exact hspecy.2.1 j (by rw [halign i hi]; exact hj),
    fun j hj1 hj2 => by
      rw [hy]
      exact hspecy.2.2 j (by rw [halign i hi]; exact hj1) hj2⟩
  · show ((X.map List.length).getD i 0) = (X.getD i []).length
    have hm : i < ((X.map List.length).length) := by simpa using hi
    rw [List.getD_eq_getElem _ _ hm, List.getElem_map, List.getD_eq_getElem _ _ hi]

/-- Witness for C2 at `padId = 0`, `X = [[1, 2], [3]]`, `Y = [[4, 5], [6]]`,
`i = 1`. -/
theorem add_padding_spec_witness :
    (add_padding_noY 0 [[1, 2], [3]]).1.length = ([[1, 2], [3]] : List (List Nat)).length ∧
    (add_padding_noY 0 [[1, 2], [3]]).2.length = ([[1, 2], [3]] : List (List Nat)).length ∧
    (add_padding_noY 0 [[1, 2], [3]]).2.getD 1 0 =
      (([[1, 2], [3]] : List (List Nat)).getD 1 []).length ∧
    ((add_padding_noY 0 [[1, 2], [3]]).1.getD 1 []).length = max_len [[1, 2], [3]] ∧
    (([[1, 2], [3]] : List (List Nat)).getD 1 []).length ≤ max_len [[1, 2], [3]] ∧
    (∀ j, j < (([[1, 2], [3]] : List (List Nat)).getD 1 []).length →
      ((add_padding_noY 0 [[1, 2], [3]]).1.getD 1 []).getD j 0 =
        (([[1, 2], [3]] : List (List Nat)).getD 1 []).getD j 0) ∧
    (∀ j, (([[1, 2], [3]] : List (List Nat)).getD 1 []).length ≤ j → j < max_len [[1, 2], [3]] →
      ((add_padding_noY 0 [[1, 2], [3]]).1.getD 1 []).getD j 0 = 0) ∧
    (add_padding 0 [[1, 2], [3]] [[4, 5], [6]]).1 = (add_padding_noY 0 [[1, 2], [3]]).1 ∧
    (add_padding 0 [[1, 2], [3]] [[4, 5], [6]]).2.2 = (add_padding_noY 0 [[1, 2], [3]]).2 ∧
    (add_padding 0 [[1, 2], [3]] [[4, 5], [6]]).2.1.length =
      ([[1, 2], [3]] : List (List Nat)).length ∧
    ((add_padding 0 [[1, 2], [3]] [[4, 5], [6]]).2.1.getD 1 []).length = max_len [[1, 2], [3]] ∧
    (∀ j, j < (([[1, 2], [3]] : List (List Nat)).getD 1 []).length →
      ((add_padding 0 [[1, 2], [3]] [[4, 5], [6]]).2.1.getD 1 []).getD j 0 =
        (([[4, 5], [6]] : List (List Nat)).getD 1 []).getD j 0) ∧
    (∀ j, (([[1, 2], [3]] : List (List Nat)).getD 1 []).length ≤ j → j < max_len [[1, 2], [3]] →
      ((add_padding 0 [[1, 2], [3]] [[4, 5], [6]]).2.1.getD 1 []).getD j 0 = 0) :=
  add_padding_spec 0 [[1, 2], [3]] [[4, 5], [6]] 1 (by decide) (by decide)
    (fun j hj => by
      have h2 : j < 2 := by simpa using hj
      interval_cases j <;> rfl)

/-! ### `CharLSTM._sample` decode loop (langmodel.py lines 359-422)

The network outputs and the categorical draw `np.random.choice` are abstracted
by an oracle `Nat → Nat → Nat` giving, for each loop step and each still-active
slot, the sampled character ID; every theorem below quantifies over all
oracles, hence over all possible draws.  The loop is embedded with an explicit
fuel counter: `none` means the fuel ran out before the loop exited. -/

/-- Sum of the lengths of all paragraphs (a proof-measure for the loop). -/
def total_len (ps : List (List Nat)) : Nat := (ps.map List.length).sum

/-- Embedding of `paragraphs[paragraph_id].append(sampled_char_id)`. -/
def appendAt (ps : List (List Nat)) (pid c : Nat) : List (List Nat) :=
  ps.set pid (ps.getD pid [] ++ [c])

/-- Embedding of the `for sample_id, paragraph_id in enumerate(paragraph_ids)`
body of the decode loop: `pairs` holds the sampled character and the paragraph
ID of each active slot, in order; a sequence whose sampled character equals
`border` is skipped (not appended, dropped from the next active set), every
other one gets its character appended and survives. -/
def processSamples (border : Nat) :
    List (Nat × Nat) → List (List Nat) → List (List Nat) × List Nat
  | [], ps => (ps, [])
  | (c, pid) :: rest, ps =>
      if c = border then processSamples border rest ps
      else
        let r := processSamples border rest (appendAt ps pid c)
        (r.1, pid :: r.2)

/-- Embedding of the `while len(max(paragraphs, key=len)) < max_char_len` loop
of `_sample`: run one oracle step for every active slot, drop finished
sequences, stop when no sequence remains active, otherwise continue. -/
def sampleLoop (border M : Nat) (oracle : Nat → Nat → Nat) :
    Nat → List (List Nat) → List Nat → Option (List (List Nat))
  | 0, _, _ => none
  | fuel + 1, ps, active =>
      if max_len ps < M then
        let chars := (List.range active.length).map (oracle fuel)
        let r := processSamples border (chars.zip active) ps
        if r.2.isEmpty then some r.1
        else sampleLoop border M oracle fuel r.1 r.2
      else some ps

/-- Embedding of `paragraphs = [[self._paragraph_border_id] for _ in
range(sample_num)]` (the prompt-free seeding; `_add_padding` is a no-op on it
since all the seeds have length 1). -/
def sampleInit (border N : Nat) : List (List Nat) := List.replicate N [border]

/-- The complete prompt-free `_sample` decode: seeded sequences, active set
`list(range(sample_num))`, then the decode loop. -/
def sampleRun (border M N : Nat) (oracle : Nat → Nat → Nat) (fuel : Nat) :
    Option (List (List Nat)) :=
  sampleLoop border M oracle fuel (sampleInit border N) (List.range N)

theorem length_appendAt (ps : List (List Nat)) (pid c : Nat) :
    (appendAt ps pid c).length = ps.length := by
  simp [appendAt]

theorem processSamples_cons_skip (border pid : Nat) (c : Nat) (rest : List (Nat × Nat))
    (ps : List (List Nat)) (hc : c = border) :
    processSamples border ((c, pid) :: rest) ps = processSamples border rest ps := by
  simp [processSamples, hc]

theorem processSamples_cons_keep (border c pid : Nat) (rest : List (Nat × Nat))
    (ps : List (List Nat)) (hc : c ≠ border) :
    processSamples border ((c, pid) :: rest) ps =
      ((processSamples border rest (appendAt ps pid c)).1,
       pid :: (processSamples border rest (appendAt ps pid c)).2) := by
  simp [processSamples, hc]

theorem processSamples_fst_length (border : Nat) (pairs : List (Nat × Nat)) :
    ∀ ps, ((processSamples border pairs ps).1).length = ps.length := by
  induction pairs with
  | nil => intro ps; rfl
  | cons cp rest ih =>
      intro ps
      obtain ⟨c, pid⟩ := cp
      by_cases hc : c = border
      · simpa [processSamples, hc] using ih ps
      · simpa [processSamples, hc] using (ih (appendAt ps pid c)).trans (length_appendAt ps pid c)

theorem processSamples_snd_sublist (border : Nat) (pairs : List (Nat × Nat)) :
    ∀ ps, ((processSamples border pairs ps).2).Sublist (pairs.map Prod.snd) := by
  induction pairs with
  | nil => intro ps; simp [processSamples]
  | cons cp rest ih =>
      intro ps
      obtain ⟨c, pid⟩ := cp
      by_cases hc : c = border
      · simpa [processSamples, hc] using (ih ps).trans (List.sublist_cons_self _ _)
      · simpa [processSamples, hc] using (ih (appendAt ps pid c)).cons₂ pid

theorem appendAt_getD_ne (ps : List (List Nat)) (pid c j : Nat) (h : j ≠ pid) :
    (appendAt ps pid c).getD j [] = ps.getD j [] := by
  simp only [appendAt, List.getD_eq_getElem?_getD]
  rw [List.getElem?_set_ne (fun he => h he.symm)]

theorem processSamples_getD_not_mem (border : Nat) (pairs : List (Nat × Nat)) :
    ∀ ps j, j ∉ pairs.map Prod.snd →
      ((processSamples border pairs ps).1).getD j [] = ps.getD j [] := by
  induction pairs with
  | nil => intro ps j _; rfl
  | cons cp rest ih =>
      intro ps j hj
      obtain ⟨c, pid⟩ := cp
      simp only [List.map_cons, List.mem_cons, not_or] at hj
      by_cases hc : c = border
      · rw [processSamples_cons_skip border pid c rest ps hc]
        exact ih ps j hj.2
      · rw [processSamples_cons_keep border c pid rest ps hc]
        exact (ih (appendAt ps pid c) j hj.2).trans (appendAt_getD_ne ps pid c j hj.1)

/-- Effect of one pass on one cell, assuming the active paragraph IDs are
distinct (they are: they start as `range(sample_num)` and only shrink): either
the cell is untouched or exactly one non-border sampled character was appended
to it. -/
theorem processSamples_getD (border : Nat) (pairs : List (Nat × Nat)) :
    ∀ ps j, (pairs.map Prod.snd).Nodup → (∀ p ∈ pairs.map Prod.snd, p < ps.length) →
      ((processSamples border pairs ps).1).getD j [] = ps.getD j [] ∨
      ∃ c, (c, j) ∈ pairs ∧ c ≠ border ∧
        ((processSamples border pairs ps).1).getD j [] = ps.getD j [] ++ [c] := by
  induction pairs with
  | nil => intro ps j _ _; exact Or.inl rfl
  | cons cp rest ih =>
      intro ps j hnd hv
      obtain ⟨c, pid⟩ := cp
      simp only [List.map_cons, List.nodup_cons] at hnd
      by_cases hc : c = border
      · rw [processSamples_cons_skip border pid c rest ps hc]
        rcases ih ps j hnd.2 (fun p hp => hv p (by simp [hp])) with h | ⟨c', hc', hcb, he⟩
        · exact Or.inl h
        · exact Or.inr ⟨c', by simp [hc'], hcb, he⟩
      · rw [processSamples_cons_keep border c pid rest ps hc]
        have hv' : ∀ p ∈ rest.map Prod.snd, p < (appendAt ps pid c).length := by
          rw [length_appendAt]
          exact fun p hp => hv p (by simp [hp])
        by_cases hj : j = pid
        · have hnm : ((processSamples border rest (appendAt ps pid c)).1).getD j [] =
              (appendAt ps pid c).getD j [] := by
            rw [hj]
            exact processSamples_getD_not_mem border rest (appendAt ps pid c) pid hnd.1
          have hset : (appendAt ps pid c).getD j [] = ps.getD j [] ++ [c] := by
            have hpid : pid < ps.length := hv pid (by simp)
            rw [hj]
            simp only [appendAt, List.getD_eq_getElem?_getD]
            rw [List.getElem?_set_self (by simpa using hpid)]
            rfl
          exact Or.inr ⟨c, by simp [hj], hc, hnm.trans hset⟩
        · rcases ih (appendAt ps pid c) j hnd.2 hv' with h | ⟨c', hc', hcb, he⟩
          · exact Or.inl (h.trans (appendAt_getD_ne ps pid c j hj))
          · exact Or.inr ⟨c', by simp [hc'], hcb,
              he.trans (by rw [appendAt_getD_ne ps pid c j hj])⟩

theorem total_len_appendAt (ps : List (List Nat)) (pid c : Nat) (h : pid < ps.length) :
    total_len (appendAt ps pid c) = total_len ps + 1 := by
  induction ps generalizing pid with
  | nil => simp at h
  | cons p rest ih =>
      cases pid with
      | zero =>
          simp only [appendAt, total_len, List.getD_cons_zero, List.set_cons_zero,
            List.map_cons, List.sum_cons, List.length_append, List.length_cons,
            List.length_nil]
          omega
      | succ n =>
          have hn : n < rest.length := by simpa using h
          have := ih n hn
          simp only [appendAt, total_len, List.getD_cons_succ, List.set_cons_succ,
            List.map_cons, List.sum_cons] at this ⊢
          omega

theorem processSamples_total_len (border : Nat) (pairs : List (Nat × Nat)) :
    ∀ ps, (∀ p ∈ pairs.map Prod.snd, p < ps.length) →
      total_len ((processSamples border pairs ps).1) =
        total_len ps + ((processSamples border pairs ps).2).length := by
  induction pairs with
  | nil => intro ps _; simp [processSamples]
  | cons cp rest ih =>
      intro ps hv
      obtain ⟨c, pid⟩ := cp
      by_cases hc : c = border
      · rw [processSamples_cons_skip border pid c rest ps hc]
        exact ih ps (fun p hp => hv p (by simp [hp]))
      · have hpid : pid < ps.length := hv pid (by simp)
        have hv' : ∀ p ∈ rest.map Prod.snd, p < (appendAt ps pid c).length := by
          rw [length_appendAt]
          exact fun p hp => hv p (by simp [hp])
        have hrec := ih (appendAt ps pid c) hv'
        rw [processSamples_cons_keep border c pid rest ps hc]
        simp only [List.length_cons]
        rw [hrec, total_len_appendAt ps pid c hpid]
        omega

theorem total_len_le (M : Nat) (ps : List (List Nat)) (h : ∀ p ∈ ps, p.length ≤ M) :
    total_len ps ≤ M * ps.length := by
  induction ps with
  | nil => simp [total_len]
  | cons p rest ih =>
      have hp : p.length ≤ M := h p (by simp)
      have hr : total_len rest ≤ M * rest.length := ih (fun q hq => h q (by simp [hq]))
      simp only [total_len, List.map_cons, List.sum_cons, List.length_cons] at *
      calc p.length + (rest.map List.length).sum ≤ M + M * rest.length := by omega
        _ = M * (rest.length + 1) := by ring

/-- Every sequence in the batch stays at length at most `M` across one pass of
the decode loop body, provided the loop guard held on entry. -/
theorem processSamples_length_le (border M : Nat) (pairs : List (Nat × Nat))
    (ps : List (List Nat)) (hnd : (pairs.map Prod.snd).Nodup)
    (hv : ∀ p ∈ pairs.map Prod.snd, p < ps.length)
    (hlt : ∀ p ∈ ps, p.length < M) :
    ∀ q ∈ (processSamples border pairs ps).1, q.length ≤ M := by
  intro q hq
  obtain ⟨i, hi, hqe⟩ := List.mem_iff_getElem.mp hq
  have hips : i < ps.length := by
    rw [← processSamples_fst_length border pairs ps]; exact hi
  have hq' : q = ((processSamples border pairs ps).1).getD i [] := by
    rw [List.getD_eq_getElem _ _ hi, hqe]
  rcases processSamples_getD border pairs ps i hnd hv with h | ⟨c, _, _, h⟩
  · rw [hq', h, List.getD_eq_getElem _ _ hips]
    exact le_of_lt (hlt _ (List.getElem_mem hips))
  · rw [hq', h]
    have : (ps.getD i []).length < M := by
      rw [List.getD_eq_getElem _ _ hips]
      exact hlt _ (List.getElem_mem hips)
    simp only [List.length_append, List.length_cons, List.length_nil]
    omega

/-- Fuel sufficiency for the decode loop: with the stated invariants, fuel
covering the remaining total capacity makes the loop return, the batch size is
preserved, and every sequence ends at length at most `M`. -/
theorem sampleLoop_total (border M : Nat) (oracle : Nat → Nat → Nat) :
    ∀ fuel ps active, (∀ p ∈ ps, p.length ≤ M) → active.Nodup →
      (∀ i ∈ active, i < ps.length) →
      M * ps.length + 1 ≤ total_len ps + fuel →
      ∃ res, sampleLoop border M oracle fuel ps active = some res ∧
        res.length = ps.length ∧ ∀ p ∈ res, p.length ≤ M := by
  intro fuel
  induction fuel with
  | zero =>
      intro ps active hM _ _ hfuel
      exact absurd (total_len_le M ps hM) (by omega)
  | succ fuel ih =>
      intro ps active hM hnd hv hfuel
      by_cases hmax : max_len ps < M
      · set pairs := ((List.range active.length).map (oracle fuel)).zip active with hpairs
        set r := processSamples border pairs ps with hrdef
        have hchars : pairs.map Prod.snd = active := by
          rw [hpairs]
          exact List.map_snd_zip _ _ (by simp)
        have hnd' : (pairs.map Prod.snd).Nodup := by rw [hchars]; exact hnd
        have hv' : ∀ p ∈ pairs.map Prod.snd, p < ps.length := by rw [hchars]; exact hv
        have hlt : ∀ p ∈ ps, p.length < M :=
          fun p hp => lt_of_le_of_lt (length_le_max_len hp) hmax
        have hlen' : r.1.length = ps.length := processSamples_fst_length border pairs ps
        have hle' : ∀ q ∈ r.1, q.length ≤ M :=
          processSamples_length_le border M pairs ps hnd' hv' hlt
        have hloop : sampleLoop border M oracle (fuel + 1) ps active =
            if r.2.isEmpty then some r.1 else sampleLoop border M oracle fuel r.1 r.2 := by
          rw [sampleLoop, if_pos hmax]
        by_cases hemp : r.2.isEmpty
        · exact ⟨r.1, by rw [hloop, if_pos hemp], hlen', hle'⟩
        · have hsub : r.2.Sublist active := by
            rw [← hchars]
            exact processSamples_snd_sublist border pairs ps
          have hnd2 : r.2.Nodup := hnd.sublist hsub
          have hv2 : ∀ i ∈ r.2, i < r.1.length := by
            intro i hi
            rw [hlen']
            exact hv i (hsub.mem hi)
          have htot : total_len r.1 = total_len ps + r.2.length :=
            processSamples_total_len border pairs ps hv'
          have hne : r.2 ≠ [] := by
            intro h0
            rw [h0] at hemp
            simp at hemp
          have hpos : 0 < r.2.length := List.length_pos.mpr hne
          have hfuel2 : M * r.1.length + 1 ≤ total_len r.1 + fuel := by
            rw [hlen', htot]
            omega
          obtain ⟨res, hres, hrl, hrle⟩ := ih r.1 r.2 hle' hnd2 hv2 hfuel2
          exact ⟨res, by rw [hloop, if_neg hemp]; exact hres, by rw [hrl, hlen'], hrle⟩
      · exact ⟨ps, by rw [sampleLoop, if_neg hmax], rfl, hM⟩

/-- C3.  For every maximum character length `M ≥ 1` and sample count `N ≥ 1`
(no prompts), and for every possible sequence of categorical draws (the
oracle), the decode loop of `_sample` terminates within `N * M` iterations and
returns exactly `N` sequences, each of length (including the leading
terminator, before boundary stripping) at most `M`. -/
theorem sample_terminates (border M N : Nat) (oracle : Nat → Nat → Nat)
    (hM : 1 ≤ M) (hN : 1 ≤ N) :
    ∃ res, sampleRun border M N oracle (N * M) = some res ∧
      res.length = N ∧ ∀ p ∈ res, p.length ≤ M := by
  have hinit : ∀ p ∈ sampleInit border N, p.length ≤ M := by
    intro p hp
    rw [(List.mem_replicate.mp hp).2]
    simpa using hM
  have htot : total_len (sampleInit border N) = N := by
    simp [total_len, sampleInit, List.map_replicate]
  have hfuel : M * (sampleInit border N).length + 1 ≤ total_len (sampleInit border N) + N * M := by
    rw [htot]
    simp only [sampleInit, List.length_replicate]
    calc M * N + 1 ≤ M * N + N := Nat.add_le_add_left hN _
      _ = N + M * N := Nat.add_comm _ _
      _ = N + N * M := by rw [Nat.mul_comm]
  obtain ⟨res, hres, hlen, hle⟩ := sampleLoop_total border M oracle (N * M)
    (sampleInit border N) (List.range N) hinit (List.nodup_range N)
    (fun i hi => by simpa [sampleInit] using List.mem_range.mp hi) hfuel
  exact ⟨res, hres, by simpa [sampleInit] using hlen, hle⟩

/-- Witness for C3 at `border = 0`, `M = 1`, `N = 1`. -/
theorem sample_terminates_witness :
    ∃ res, sampleRun 0 1 1 (fun _ _ => 0) (1 * 1) = some res ∧
      res.length = 1 ∧ ∀ p ∈ res, p.length ≤ 1 :=
  sample_terminates 0 1 1 (fun _ _ => 0) (by decide) (by decide)

theorem processSamples_border_inv (border : Nat) (pairs : List (Nat × Nat)) :
    ∀ ps, (∀ p ∈ ps, ∃ body, p = border :: body ∧ border ∉ body) →
      ∀ p ∈ (processSamples border pairs ps).1, ∃ body, p = border :: body ∧ border ∉ body := by
  induction pairs with
  | nil => intro ps hinv; exact hinv
  | cons cp rest ih =>
      intro ps hinv
      obtain ⟨c, pid⟩ := cp
      by_cases hc : c = border
      · rw [processSamples_cons_skip border pid c rest ps hc]
        exact ih ps hinv
      · rw [processSamples_cons_keep border c pid rest ps hc]
        refine ih (appendAt ps pid c) ?_
        intro q hq
        by_cases hpid : pid < ps.length
        · rcases List.mem_or_eq_of_mem_set hq with hmem | heq
          · exact hinv q hmem
          · have hold : ps.getD pid [] ∈ ps := by
              rw [List.getD_eq_getElem _ _ hpid]
              exact List.getElem_mem hpid
            obtain ⟨body, hbody, hnb⟩ := hinv _ hold
            refine ⟨body ++ [c], ?_, ?_⟩
            · rw [heq, hbody]
              rfl
            · intro hmem2
              rcases List.mem_append.mp hmem2 with h1 | h2
              · exact hnb h1
              · exact hc (List.mem_singleton.mp h2).symm
        · have : appendAt ps pid c = ps := by
            unfold appendAt
            exact List.set_eq_of_length_le (by omega)
          rw [this] at hq
          exact hinv q hq

/-- C10.  In every batch of sequences produced by the prompt-free sampler, the
terminator ID occurs only at position 0: each returned sequence is the leading
terminator followed by a body that never contains the terminator, because a
sampled terminator is never appended (the sequence is dropped from the active
set instead). -/
theorem sample_border_only_at_head (border M N fuel : Nat) (oracle : Nat → Nat → Nat)
    (res : List (List Nat)) (h : sampleRun border M N oracle fuel = some res) :
    ∀ p ∈ res, ∃ body, p = border :: body ∧ border ∉ body := by
  have hloop : ∀ fuel ps active res,
      (∀ p ∈ ps, ∃ body, p = border :: body ∧ border ∉ body) →
      sampleLoop border M oracle fuel ps active = some res →
      ∀ p ∈ res, ∃ body, p = border :: body ∧ border ∉ body := by
    intro fuel
    induction fuel with
    | zero =>
        intro ps active res _ heq
        simp [sampleLoop] at heq
    | succ fuel ih =>
        intro ps active res hinv heq
        by_cases hmax : max_len ps < M
        · rw [sampleLoop, if_pos hmax] at heq
          set pairs := ((List.range active.length).map (oracle fuel)).zip active with hpairs
          by_cases hemp : ((processSamples border pairs ps).2).isEmpty
          · rw [if_pos hemp] at heq
            obtain rfl := Option.some.inj heq
            exact processSamples_border_inv border pairs ps hinv
          · rw [if_neg hemp] at heq
            exact ih _ _ res (processSamples_border_inv border pairs ps hinv) heq
        · rw [sampleLoop, if_neg hmax] at heq
          obtain rfl := Option.some.inj heq
          exact hinv
  refine hloop fuel (sampleInit border N) (List.range N) res ?_ h
  intro p hp
  rw [(List.mem_replicate.mp hp).2]
  exact ⟨[], rfl, List.not_mem_nil border⟩

/-- Witness for C10 at `border = 0`, `M = 2`, `N = 1`, an oracle that always
draws character 1, fuel 2; the loop returns `[[0, 1]]`. -/
theorem sample_border_only_at_head_witness :
    ∃ body, ([0, 1] : List Nat) = 0 :: body ∧ 0 ∉ body :=
  sample_border_only_at_head 0 2 1 2 (fun _ _ => 1) [[0, 1]] (by decide) [0, 1] (by decide)

/-! ### `sample_chars_from_probs` top-k truncation (langmodel.py lines 363-372)

Probabilities are modelled over `ℚ`.  `np.argsort` sorts the indices by
ascending value with an unspecified tie-break (numpy's default quicksort is
not stable); insertion sort realizes one admissible tie-break.  The numpy
slice `[:-pick_top_k]` is `take (n - k)` for `0 < k` (for `k ≥ n` both are
empty, matching `a[:-k] = []` in Python). -/

/-- Embedding of `np.argsort(y_prob)`: the indices of `p` sorted by ascending
probability. -/
def argsort (p : List ℚ) : List Nat :=
  (List.range p.length).insertionSort fun i j => p.getD i 0 ≤ p.getD j 0

/-- The indices zeroed by `y_prob[np.argsort(y_prob)[:-pick_top_k]] = 0`. -/
def zero_idx (k : Nat) (p : List ℚ) : List Nat := (argsort p).take (p.length - k)

/-- The surviving indices: the `k` highest-sorted ones. -/
def keep_idx (k : Nat) (p : List ℚ) : List Nat := (argsort p).drop (p.length - k)

/-- The probability vector after the zeroing assignment, before renormalizing. -/
def masked_probs (k : Nat) (p : List ℚ) : List ℚ :=
  (List.range p.length).map fun i => if i ∈ zero_idx k p then 0 else p.getD i 0

/-- Embedding of the truncation performed by `sample_chars_from_probs`: when
`pick_top_k` is falsy (`0` here, modelling both `0` and `None`) the
distribution is used unchanged, otherwise all but the `k` highest-sorted
entries are zeroed and the vector is divided by its sum
(`y_prob /= np.sum(y_prob)`). -/
def top_k_truncate (k : Nat) (p : List ℚ) : List ℚ :=
  if k = 0 then p
  else (masked_probs k p).map fun q => q / (masked_probs k p).sum

theorem argsort_perm (p : List ℚ) : (argsort p).Perm (List.range p.length) :=
  List.perm_insertionSort _ _

theorem argsort_length (p : List ℚ) : (argsort p).length = p.length :=
  (argsort_perm p).length_eq.trans (List.length_range _)

theorem argsort_nodup (p : List ℚ) : (argsort p).Nodup :=
  ((argsort_perm p).nodup_iff).mpr (List.nodup_range _)

theorem argsort_sorted (p : List ℚ) :
    (argsort p).Sorted fun i j => p.getD i 0 ≤ p.getD j 0 := by
  haveI : IsTotal Nat fun i j => p.getD i 0 ≤ p.getD j 0 := ⟨fun a b => le_total _ _⟩
  haveI : IsTrans Nat fun i j => p.getD i 0 ≤ p.getD j 0 :=
    ⟨fun a b c hab hbc => le_trans hab hbc⟩
  exact List.sorted_insertionSort _ _

theorem zero_keep_append (k : Nat) (p : List ℚ) :
    zero_idx k p ++ keep_idx k p = argsort p :=
  List.take_append_drop _ _

theorem keep_idx_length (k : Nat) (p : List ℚ) (hkn : k ≤ p.length) :
    (keep_idx k p).length = k := by
  simp only [keep_idx, List.length_drop, argsort_length]
  omega

theorem mem_keep_lt {k : Nat} {p : List ℚ} {i : Nat} (hi : i ∈ keep_idx k p) :
    i < p.length :=
  List.mem_range.mp ((argsort_perm p).mem_iff.mp (List.mem_of_mem_drop hi))

theorem zero_le_keep {k : Nat} {p : List ℚ} {j i : Nat}
    (hj : j ∈ zero_idx k p) (hi : i ∈ keep_idx k p) : p.getD j 0 ≤ p.getD i 0 := by
  have hs := argsort_sorted p
  rw [← zero_keep_append k p] at hs
  exact (List.pairwise_append.mp hs).2.2 j hj i hi

theorem not_keep_mem_zero {k : Nat} {p : List ℚ} {j : Nat}
    (hj : j < p.length) (hjS : j ∉ keep_idx k p) : j ∈ zero_idx k p := by
  have hmem : j ∈ argsort p := (argsort_perm p).mem_iff.mpr (List.mem_range.mpr hj)
  rw [← zero_keep_append k p] at hmem
  rcases List.mem_append.mp hmem with h | h
  · exact h
  · exact absurd h hjS

theorem zero_keep_disjoint (k : Nat) (p : List ℚ) :
    ∀ i ∈ keep_idx k p, i ∉ zero_idx k p := by
  have hnd := argsort_nodup p
  rw [← zero_keep_append k p] at hnd
  intro i hi hz
  exact (List.nodup_append.mp hnd).2.2 hz hi

theorem masked_length (k : Nat) (p : List ℚ) :
    (masked_probs k p).length = p.length := by
  simp [masked_probs]

theorem masked_getD {k : Nat} {p : List ℚ} {j : Nat} (hj : j < p.length) :
    (masked_probs k p).getD j 0 = if j ∈ zero_idx k p then 0 else p.getD j 0 := by
  have hm : j < (masked_probs k p).length := by rw [masked_length]; exact hj
  rw [List.getD_eq_getElem _ _ hm]
  simp only [masked_probs, List.getElem_map, List.getElem_range]

theorem masked_sum (k : Nat) (p : List ℚ) :
    (masked_probs k p).sum = ((keep_idx k p).map fun i => p.getD i 0).sum := by
  have hperm : ((List.range p.length).map fun i =>
      if i ∈ zero_idx k p then (0 : ℚ) else p.getD i 0).Perm
      ((argsort p).map fun i => if i ∈ zero_idx k p then (0 : ℚ) else p.getD i 0) :=
    ((argsort_perm p).symm).map _
  rw [masked_probs, hperm.sum_eq, ← zero_keep_append k p, List.map_append, List.sum_append]
  have hz : ((zero_idx k p).map fun i =>
      if i ∈ zero_idx k p then (0 : ℚ) else p.getD i 0).sum = 0 := by
    apply List.sum_eq_zero
    intro x hx
    obtain ⟨i, hi, rfl⟩ := List.mem_map.mp hx
    simp [hi]
  have hk : ((keep_idx k p).map fun i =>
      if i ∈ zero_idx k p then (0 : ℚ) else p.getD i 0) =
      (keep_idx k p).map fun i => p.getD i 0 := by
    apply List.map_congr_left
    intro i hi
    simp [zero_keep_disjoint k p i hi]
  rw [hz, hk, zero_add]

theorem sum_map_div (l : List ℚ) (a : ℚ) : (l.map fun q => q / a).sum = l.sum / a := by
  induction l with
  | nil => simp
  | cons x t ih => simp [List.sum_cons, ih, add_div]

theorem exists_pos_of_sum_pos (l : List ℚ) (h : 0 < l.sum) : ∃ q ∈ l, 0 < q := by
  induction l with
  | nil => simp at h
  | cons a t ih =>
      by_cases ha : 0 < a
      · exact ⟨a, by simp, ha⟩
      · push_neg at ha
        have ht : 0 < t.sum := by
          simp only [List.sum_cons] at h
          linarith
        obtain ⟨q, hq, hq0⟩ := ih ht
        exact ⟨q, by simp [hq], hq0⟩

theorem masked_sum_pos (k : Nat) (p : List ℚ) (hk0 : 0 < k) (hkn : k < p.length)
    (hsum : p.sum = 1) (hpos : ∀ q ∈ p, 0 ≤ q) : 0 < (masked_probs k p).sum := by
  rw [masked_sum]
  have hnonnegS : ∀ x ∈ (keep_idx k p).map fun i => p.getD i 0, 0 ≤ x := by
    intro x hx
    obtain ⟨i, hi, rfl⟩ := List.mem_map.mp hx
    have hlt := mem_keep_lt hi
    rw [List.getD_eq_getElem _ _ hlt]
    exact hpos _ (List.getElem_mem hlt)
  obtain ⟨q, hq, hq0⟩ := exists_pos_of_sum_pos p (by rw [hsum]; norm_num)
  obtain ⟨idx, hidx, rfl⟩ := List.mem_iff_getElem.mp hq
  have hgetD : p.getD idx 0 = p[idx] := List.getD_eq_getElem _ _ hidx
  by_cases hS : idx ∈ keep_idx k p
  · have hmem : p.getD idx 0 ∈ (keep_idx k p).map fun i => p.getD i 0 :=
      List.mem_map.mpr ⟨idx, hS, rfl⟩
    have := List.single_le_sum hnonnegS _ hmem
    rw [hgetD] at this
    linarith
  · have hZ : idx ∈ zero_idx k p := not_keep_mem_zero hidx hS
    have hkeep_len : (keep_idx k p).length = k := keep_idx_length k p (le_of_lt hkn)
    have hne : keep_idx k p ≠ [] := by
      intro h0
      rw [h0] at hkeep_len
      simp only [List.length_nil] at hkeep_len
      omega
    obtain ⟨i0, hi0⟩ := List.exists_mem_of_ne_nil _ hne
    have hle := zero_le_keep hZ hi0
    have hmem : p.getD i0 0 ∈ (keep_idx k p).map fun i => p.getD i 0 :=
      List.mem_map.mpr ⟨i0, hi0, rfl⟩
    have hsum_ge := List.single_le_sum hnonnegS _ hmem
    rw [hgetD] at hle
    linarith

/-- C4.  For every probability vector `p` over the vocabulary and every
configured `k` with `0 < k <` vocabulary size, the truncation in
`sample_chars_from_probs` zeroes all entries outside a set `S` of `k` indices
whose probabilities dominate all others, and renormalizes so the result sums
to 1; when `k` is 0 (or unset) the distribution is used unchanged. -/
theorem top_k_truncate_spec (k : Nat) (p : List ℚ) (hk0 : 0 < k) (hkn : k < p.length)
    (hsum : p.sum = 1) (hpos : ∀ q ∈ p, 0 ≤ q) :
    (top_k_truncate k p).length = p.length ∧
    (top_k_truncate k p).sum = 1 ∧
    (∃ S : List Nat, S.length = k ∧ S.Nodup ∧ (∀ i ∈ S, i < p.length) ∧
      (∀ i ∈ S, ∀ j, j < p.length → j ∉ S → p.getD j 0 ≤ p.getD i 0) ∧
      ∀ j, j < p.length → j ∉ S → (top_k_truncate k p).getD j 0 = 0) ∧
    ∀ q : List ℚ, top_k_truncate 0 q = q := by
  have hne : k ≠ 0 := hk0.ne'
  have htop : top_k_truncate k p =
      (masked_probs k p).map fun q => q / (masked_probs k p).sum := by
    simp only [top_k_truncate, if_neg hne]
  have hspos := masked_sum_pos k p hk0 hkn hsum hpos
  refine ⟨?_, ?_, ⟨keep_idx k p, keep_idx_length k p hkn.le, ?_,
    fun i hi => mem_keep_lt hi, ?_, ?_⟩, ?_⟩
  · rw [htop]
    simp [masked_length]
  · rw [htop, sum_map_div, div_self (ne_of_gt hspos)]
  · exact (argsort_nodup p).sublist (List.drop_sublist _ _)
  · intro i hi j hj hjS
    exact zero_le_keep (not_keep_mem_zero hj hjS) hi
  · intro j hj hjS
    rw [htop]
    have hm : j < (masked_probs k p).length := by rw [masked_length]; exact hj
    have hm2 : j < ((masked_probs k p).map fun q => q / (masked_probs k p).sum).length := by
      simpa using hm
    rw [List.getD_eq_getElem _ _ hm2, List.getElem_map]
    have hzero : (masked_probs k p)[j] = 0 := by
      have hmg := masked_getD (k := k) hj
      rw [List.getD_eq_getElem _ _ hm] at hmg
      rw [hmg, if_pos (not_keep_mem_zero hj hjS)]
    rw [hzero, zero_div]
  · intro q
    simp [top_k_truncate]

/-- Witness for C4 at `k = 1`, `p = [1, 0]`. -/
theorem top_k_truncate_spec_witness :
    (top_k_truncate 1 [1, 0]).length = ([1, 0] : List ℚ).length ∧
    (top_k_truncate 1 [1, 0]).sum = 1 ∧
    (∃ S : List Nat, S.length = 1 ∧ S.Nodup ∧ (∀ i ∈ S, i < ([1, 0] : List ℚ).length) ∧
      (∀ i ∈ S, ∀ j, j < ([1, 0] : List ℚ).length → j ∉ S →
        ([1, 0] : List ℚ).getD j 0 ≤ ([1, 0] : List ℚ).getD i 0) ∧
      ∀ j, j < ([1, 0] : List ℚ).length → j ∉ S → (top_k_truncate 1 [1, 0]).getD j 0 = 0) ∧
    ∀ q : List ℚ, top_k_truncate 0 q = q :=
  top_k_truncate_spec 1 [1, 0] (by decide) (by decide) (by norm_num) (by decide)

/-! ### Validation / checkpoint discipline (langmodel.py `validate` lines
68-94, `_save` lines 187-200, `train` line 112)

`best_perplexity` starts as `np.float64('inf')` (modelled by `⊤ : WithTop ℚ`)
and is a local of `train`; `_save` pickles a copy of the instance whose
attributes are the constructor hyperparameters (with `_graph`/`_nodes`
cleared) — the instance stores no best-metric attribute. -/

/-- The attributes of a `CharLSTM` instance as pickled by `_save`
(`instance.pkl`): the constructor hyperparameters, encoder-derived fields and
the graph/nodes slots.  There is no best-perplexity attribute. -/
structure SavedInstance where
  embedding_size : Nat
  rnn_size : Nat
  num_rnn_layers : Nat
  learning_rate : ℚ
  rnn_dropouts : List ℚ
  final_dropout : ℚ
  vocab_size : Option Nat
  num_params : Option Nat
  paragraph_border_id : Option Nat
  graph_present : Bool
  nodes_present : Bool
deriving DecidableEq

/-- Embedding of `_save`'s `instance = copy(self); instance._graph = None;
instance._nodes = None; pickle.dump(instance, ...)`. -/
def save_instance (m : SavedInstance) : SavedInstance :=
  { m with graph_present := false, nodes_present := false }

/-- One persisted checkpoint: the weight snapshot (`saver.save`, abstracted to
a flag) together with the pickled configuration record. -/
structure Checkpoint where
  params_saved : Bool
  config : SavedInstance
deriving DecidableEq

/-- Embedding of the tail of `validate`: if the new validation perplexity
improves strictly on the best known value, `_save` persists a checkpoint and
the best value is updated; otherwise nothing happens. -/
def validate_step (m : SavedInstance) (q : ℚ) (best : WithTop ℚ)
    (saved : List Checkpoint) : WithTop ℚ × List Checkpoint :=
  if (q : WithTop ℚ) < best then ((q : WithTop ℚ), saved ++ [⟨true, save_instance m⟩])
  else (best, saved)

/-- The sequence of validation boundaries of one training run, folded from the
initial sentinel `best_perplexity = inf` and no persisted checkpoint; `ps` is
the list of computed validation perplexities in order. -/
def run_validations (m : SavedInstance) (ps : List ℚ) : WithTop ℚ × List Checkpoint :=
  ps.foldl (fun st q => validate_step m q st.1 st.2) (⊤, [])

/-- A concrete instance configuration (the constructor defaults). -/
def default_instance : SavedInstance :=
  ⟨128, 256, 2, 3 / 1000, [1, 1], 1 / 2, some 100, none, some 1, true, true⟩

theorem validate_step_fst_le (m : SavedInstance) (q : ℚ) (best : WithTop ℚ)
    (saved : List Checkpoint) : (validate_step m q best saved).1 ≤ best := by
  unfold validate_step
  by_cases h : (q : WithTop ℚ) < best
  · rw [if_pos h]
    exact le_of_lt h
  · rw [if_neg h]

theorem validate_step_snd_le (m : SavedInstance) (q : ℚ) (best : WithTop ℚ)
    (saved : List Checkpoint) : saved.length ≤ (validate_step m q best saved).2.length := by
  unfold validate_step
  by_cases h : (q : WithTop ℚ) < best
  · rw [if_pos h]
    simp
  · rw [if_neg h]

theorem run_fold_mono (m : SavedInstance) :
    ∀ (ps : List ℚ) (best : WithTop ℚ) (saved : List Checkpoint),
      (ps.foldl (fun st q => validate_step m q st.1 st.2) (best, saved)).1 ≤ best ∧
      saved.length ≤ (ps.foldl (fun st q => validate_step m q st.1 st.2) (best, saved)).2.length := by
  intro ps
  induction ps with
  | nil => exact fun best saved => ⟨le_refl _, le_refl _⟩
  | cons q rest ih =>
      intro best saved
      simp only [List.foldl_cons]
      have hstep := ih (validate_step m q best saved).1 (validate_step m q best saved).2
      exact ⟨le_trans hstep.1 (validate_step_fst_le m q best saved),
        le_trans (validate_step_snd_le m q best saved) hstep.2⟩

/-- C5 amended.  The best-known validation perplexity starts at the infinity
sentinel, every validation boundary can only lower it, a checkpoint
(parameters and the pickled configuration record) is persisted exactly when
the new perplexity is strictly below the best-known value, and any run with at
least one validation boundary persists a checkpoint and ends with a best value
strictly below the sentinel.  (The persisted record does not contain the
best metric; see the counterexample.) -/
theorem validate_checkpoint_spec (m : SavedInstance) (q : ℚ) (best : WithTop ℚ)
    (saved : List Checkpoint) (ps : List ℚ) (hps : ps ≠ []) :
    (run_validations m []).1 = ⊤ ∧
    (run_validations m []).2 = [] ∧
    (validate_step m q best saved).1 ≤ best ∧
    ((validate_step m q best saved).2 = saved ++ [⟨true, save_instance m⟩] ↔
      (q : WithTop ℚ) < best) ∧
    (¬ (q : WithTop ℚ) < best → validate_step m q best saved = (best, saved)) ∧
    (run_validations m ps).2 ≠ [] ∧
    (run_validations m ps).1 < ⊤ := by
  refine ⟨rfl, rfl, validate_step_fst_le m q best saved, ?_, ?_, ?_, ?_⟩
  · constructor
    · intro h
      by_contra hlt
      have : (validate_step m q best saved).2 = saved := by
        unfold validate_step
        rw [if_neg hlt]
      rw [this] at h
      have := congrArg List.length h
      simp at this
    · intro h
      unfold validate_step
      rw [if_pos h]
  · intro h
    unfold validate_step
    rw [if_neg h]
  · obtain ⟨q0, rest, rfl⟩ := List.exists_cons_of_ne_nil hps
    have hq0 : ((q0 : WithTop ℚ)) < ⊤ := WithTop.coe_lt_top q0
    have hfirst : validate_step m q0 ⊤ [] = ((q0 : WithTop ℚ), [⟨true, save_instance m⟩]) := by
      unfold validate_step
      rw [if_pos hq0]
      simp
    have hrest := run_fold_mono m rest (q0 : WithTop ℚ) [⟨true, save_instance m⟩]
    have : run_validations m (q0 :: rest) =
        rest.foldl (fun st q => validate_step m q st.1 st.2)
          ((q0 : WithTop ℚ), [⟨true, save_instance m⟩]) := by
      unfold run_validations
      simp only [List.foldl_cons]
      rw [hfirst]
    rw [this]
    intro h0
    have hl := congrArg List.length h0
    simp only [List.length_nil] at hl
    have := hrest.2
    simp only [List.length_cons, List.length_nil] at this
    omega
  · obtain ⟨q0, rest, rfl⟩ := List.exists_cons_of_ne_nil hps
    have hq0 : ((q0 : WithTop ℚ)) < ⊤ := WithTop.coe_lt_top q0
    have hfirst : validate_step m q0 ⊤ [] = ((q0 : WithTop ℚ), [⟨true, save_instance m⟩]) := by
      unfold validate_step
      rw [if_pos hq0]
      simp
    have hrest := run_fold_mono m rest (q0 : WithTop ℚ) [⟨true, save_instance m⟩]
    have heq : run_validations m (q0 :: rest) =
        rest.foldl (fun st q => validate_step m q st.1 st.2)
          ((q0 : WithTop ℚ), [⟨true, save_instance m⟩]) := by
      unfold run_validations
      simp only [List.foldl_cons]
      rw [hfirst]
    rw [heq]
    exact lt_of_le_of_lt hrest.1 hq0

/-- Witness for the amended C5 at the default configuration, one validation
boundary with perplexity 2. -/
theorem validate_checkpoint_spec_witness :
    (run_validations default_instance []).1 = ⊤ ∧
    (run_validations default_instance []).2 = [] ∧
    (validate_step default_instance 2 ⊤ []).1 ≤ ⊤ ∧
    ((validate_step default_instance 2 ⊤ []).2 =
      [] ++ [⟨true, save_instance default_instance⟩] ↔ ((2 : ℚ) : WithTop ℚ) < ⊤) ∧
    (¬ ((2 : ℚ) : WithTop ℚ) < ⊤ → validate_step default_instance 2 ⊤ [] = (⊤, [])) ∧
    (run_validations default_instance [2]).2 ≠ [] ∧
    (run_validations default_instance [2]).1 < ⊤ :=
  validate_checkpoint_spec default_instance 2 ⊤ [] [2] (by simp)

/-- C5 counterexample: the pickled configuration record does not record the
best-known metric.  Two runs whose final best perplexities differ (5 versus 3)
persist byte-identical checkpoint records, so the persisted configuration
cannot carry the best perplexity, contradicting the claim that the
configuration record "records the best-known metric". -/
theorem checkpoint_config_ignores_best :
    (run_validations default_instance [5]).1 ≠ (run_validations default_instance [3]).1 ∧
    (run_validations default_instance [5]).2 = (run_validations default_instance [3]).2 := by
  have h5 : (run_validations default_instance [5]).1 = ((5 : ℚ) : WithTop ℚ) := by
    simp only [run_validations, List.foldl_cons, List.foldl_nil, validate_step]
    rw [if_pos (WithTop.coe_lt_top (5 : ℚ))]
  have h3 : (run_validations default_instance [3]).1 = ((3 : ℚ) : WithTop ℚ) := by
    simp only [run_validations, List.foldl_cons, List.foldl_nil, validate_step]
    rw [if_pos (WithTop.coe_lt_top (3 : ℚ))]
  have h5s : (run_validations default_instance [5]).2 =
      [⟨true, save_instance default_instance⟩] := by
    simp only [run_validations, List.foldl_cons, List.foldl_nil, validate_step]
    rw [if_pos (WithTop.coe_lt_top (5 : ℚ))]
    simp
  have h3s : (run_validations default_instance [3]).2 =
      [⟨true, save_instance default_instance⟩] := by
    simp only [run_validations, List.foldl_cons, List.foldl_nil, validate_step]
    rw [if_pos (WithTop.coe_lt_top (3 : ℚ))]
    simp
  constructor
  · rw [h5, h3]
    intro h
    have : (5 : ℚ) = 3 := by exact_mod_cast h
    norm_num at this
  · rw [h5s, h3s]

/-! ### Sampler seeding and configuration checks (langmodel.py lines 34-40 and
374-378)

A Python paragraph list is heterogeneous, so its elements are modelled as
`Nat ⊕ List Nat`: a plain character ID, or a whole encoded prompt appended as
one nested element by `list.append`. -/

/-- An element of a Python `paragraphs[i]` list. -/
abbrev PyElem := Nat ⊕ List Nat

/-- Embedding of the seeding phase of `_sample` (before the decode loop):
`paragraphs = [[border] for _ in range(sample_num)]`; then under the Python
truthiness test `if prompts:` (skipped when `prompts` is `None` or the empty
list), `assert sample_num == len(prompts)`, and
`paragraphs[paragraph_id].append(encoded_prompt)` — which appends each encoded
prompt as a single nested element, not its individual character IDs. -/
def seed_paragraphs (border : Nat) (sample_num : Nat)
    (encoded_prompts : Option (List (List Nat))) : Except String (List (List PyElem)) :=
  match encoded_prompts with
  | none => .ok (List.replicate sample_num [Sum.inl border])
  | some prompts =>
      if prompts.isEmpty then .ok (List.replicate sample_num [Sum.inl border])
      else if sample_num ≠ prompts.length then .error "sample_num != len(prompts)"
      else .ok (prompts.map fun prompt => [Sum.inl border, Sum.inr prompt])

/-- Embedding of the `rnn_dropouts` handling at the top of
`CharLSTM.__init__`: a missing list defaults to all-ones of the right length;
a supplied list whose length differs from `num_rnn_layers` fails the assertion
before any attribute is set. -/
def init_rnn_dropouts (rnn_dropouts : Option (List ℚ)) (num_rnn_layers : Nat) :
    Except String (List ℚ) :=
  match rnn_dropouts with
  | none => .ok (List.replicate num_rnn_layers 1)
  | some ds =>
      if ds.length ≠ num_rnn_layers then .error "len(rnn_dropouts) != num_rnn_layers"
      else .ok ds

/-- C7.  At the failing input (`sample_num = 1`, one prompt encoded as
`[5, 6]`, terminator ID 9) the code seeds the sequence as the terminator
followed by the *nested* encoded prompt — one element, via `list.append` —
so the seeded sequence has length 2, not `1 + 2` as the flat seeding described
by the spec requires.  Without prompts (second conjunct) the seeding is the
single terminator ID per sequence, as claimed. -/
theorem seed_paragraphs_nests_prompt :
    seed_paragraphs 9 1 (some [[5, 6]]) = .ok [[Sum.inl 9, Sum.inr [5, 6]]] ∧
    ([Sum.inl 9, Sum.inr [5, 6]] : List PyElem).length ≠ 1 + ([5, 6] : List Nat).length ∧
    seed_paragraphs 9 2 none = .ok [[Sum.inl 9], [Sum.inl 9]] := by
  refine ⟨rfl, by decide, rfl⟩

/-- C9 counterexample: an *empty* prompts list whose length (0) differs from
`sample_num = 1` raises no error — Python's `if prompts:` is false for `[]`,
so the assertion is skipped and sampling proceeds promptless. -/
theorem empty_prompts_skip_check :
    ([] : List (List Nat)).length ≠ 1 ∧
    seed_paragraphs 0 1 (some []) = .ok [[Sum.inl 0]] := by
  refine ⟨by decide, rfl⟩

/-- C9 amended.  Constructing the model with a supplied dropout list whose
length differs from the number of recurrent layers raises an error before any
other work, and calling the sampler with a *non-empty* prompts list whose
length differs from the sample count raises an error before any decoding step
(the empty prompts list is treated as absent by Python truthiness). -/
theorem config_errors_fail_fast (ds : List ℚ) (L : Nat) (hds : ds.length ≠ L)
    (border n : Nat) (prompts : List (List Nat)) (hne : prompts ≠ [])
    (hlen : prompts.length ≠ n) :
    init_rnn_dropouts (some ds) L = .error "len(rnn_dropouts) != num_rnn_layers" ∧
    seed_paragraphs border n (some prompts) = .error "sample_num != len(prompts)" := by
  constructor
  · simp [init_rnn_dropouts, hds]
  · have h1 : prompts.isEmpty = false := by simpa [List.isEmpty_iff] using hne
    have h2 : n ≠ prompts.length := fun h => hlen h.symm
    simp [seed_paragraphs, h1, h2]

/-- Witness for the amended C9: a 1-element dropout list against 2 layers, and
a 1-element prompts list against `sample_num = 2`. -/
theorem config_errors_fail_fast_witness :
    init_rnn_dropouts (some [1]) 2 = .error "len(rnn_dropouts) != num_rnn_layers" ∧
    seed_paragraphs 0 2 (some [[5]]) = .error "sample_num != len(prompts)" :=
  config_errors_fail_fast [1] 2 (by decide) 0 2 [[5]] (by simp) (by decide)

/-! ### Training-loop iteration counter (langmodel.py `train` lines 124-157) -/

/-- Modelled from the spec: `BatchGenerator` (module `langdist.batch`, whose
source is not under `src/`), spec §4.1: "a lazy, finite, single-pass sequence
of batches, each a contiguous slice of size B (last batch may be shorter);
iteration order equals input order".  The fuel argument is the input length;
at least one element is consumed per step, so the fuel never runs out. -/
def batch_go (B : Nat) : Nat → List (List Nat) → List (List (List Nat))
  | 0, _ => []
  | _, [] => []
  | fuel + 1, x :: xs => (x :: xs.take (B - 1)) :: batch_go B fuel (xs.drop (B - 1))

/-- One epoch of batches over `X` with batch size `B` (contiguous slices,
last batch possibly shorter). -/
def batch_slices (B : Nat) (X : List (List Nat)) : List (List (List Nat)) :=
  batch_go B X.length X

/-- Embedding of the iteration-counter skeleton of the training loop of
`CharLSTM.train`: each processed batch contributes one trace entry — the
batch, the counter before it, and the counter after `iteration += batch_size`
— and the loop breaks after a batch when
`iteration > max_iteration or iteration > patience`. -/
def train_loop_trace (B maxIt pat : Nat) :
    Nat → List (List (List Nat)) → List (List (List Nat) × Nat × Nat)
  | _, [] => []
  | iter, b :: rest =>
      (b, iter, iter + B) ::
        (if maxIt < iter + B ∨ pat < iter + B then []
         else train_loop_trace B maxIt pat (iter + B) rest)

theorem train_loop_trace_aux (B maxIt pat : Nat) :
    ∀ (bs : List (List (List Nat))) (iter : Nat), iter ≤ min maxIt pat →
      ∀ e ∈ train_loop_trace B maxIt pat iter bs,
        e.2.2 = e.2.1 + B ∧ e.2.1 ≤ min maxIt pat := by
  intro bs
  induction bs with
  | nil =>
      intro iter _ e he
      simp [train_loop_trace] at he
  | cons b rest ih =>
      intro iter hiter e he
      simp only [train_loop_trace] at he
      rcases List.mem_cons.mp he with rfl | hmem
      · exact ⟨rfl, hiter⟩
      · by_cases hstop : maxIt < iter + B ∨ pat < iter + B
        · rw [if_pos hstop] at hmem
          simp at hmem
        · rw [if_neg hstop] at hmem
          push_neg at hstop
          exact ih (iter + B) (le_min hstop.1 hstop.2) e hmem

/-- C8.  Every batch processed by the training loop (the last, possibly
shorter, slice included) advances the iteration counter by exactly
`batch_size`, and a batch is processed only while the counter has not yet
exceeded `min max_iteration patience` — once it has, the trace ends, so both
conjuncts together say the first budget reached wins. -/
theorem train_iteration_counter (B maxIt pat : Nat) (X : List (List Nat))
    (b : List (List Nat)) (pre post : Nat)
    (hmem : (b, pre, post) ∈ train_loop_trace B maxIt pat 0 (batch_slices B X)) :
    post = pre + B ∧ pre ≤ min maxIt pat :=
  train_loop_trace_aux B maxIt pat (batch_slices B X) 0 (Nat.zero_le _) _ hmem

/-- Witness for C8: `batch_size = 2`, `max_iteration = 3`, `patience = 10`,
three sequences; the second (shorter) batch `[[3]]` is entered at counter 2
and still advances the counter by the full batch size to 4 (which exceeds the
budget, so the trace ends there). -/
theorem train_iteration_counter_witness :
    (4 : Nat) = 2 + 2 ∧ (2 : Nat) ≤ min 3 10 :=
  train_iteration_counter 2 3 10 [[1], [2], [3]] [[3]] 2 4 (by decide)

/-! ### In-place mutation of sequence objects (`_create_Y`, `_add_padding`)

Python lists are mutable objects; `x.insert(0, border)` and `x.extend(...)`
mutate the object passed in, while `y = copy(x)` allocates a fresh one.  To
settle the aliasing claim the two methods are re-embedded over an explicit
heap: a cell per sequence object, references as indices. -/

/-- The object heap: one mutable cell (sequence of character IDs) per
reference. -/
abbrev Heap := List (List Nat)

/-- Read the cell a reference (an index into the heap) points to. -/
def deref (h : Heap) (r : Nat) : List Nat := h.getD r []

/-- Heap-level embedding of one `_create_Y` loop body:
`y = copy(x); y.append(border)` allocates a fresh cell holding
`deref h r ++ [border]`, then `x.insert(0, border)` mutates the cell of `r`
in place.  Returns the new heap and the reference of the fresh label cell. -/
def create_Y_cell (border : Nat) (h : Heap) (r : Nat) : Heap × Nat :=
  ((h ++ [deref h r ++ [border]]).set r (border :: deref h r), h.length)

/-- Heap-level embedding of `_create_Y` over a batch of references. -/
def create_Y_heap (border : Nat) : Heap → List Nat → Heap × List Nat
  | h, [] => (h, [])
  | h, r :: rest =>
      let s := create_Y_cell border h r
      let t := create_Y_heap border s.1 rest
      (t.1, s.2 :: t.2)

/-- Heap-level `max(len(x) for x in X)`. -/
def heap_max_len (h : Heap) (xs : List Nat) : Nat :=
  xs.foldr (fun r m => max (deref h r).length m) 0

/-- Heap-level embedding of `x.extend([padding_id] * pad_len)`: in-place
mutation of the cell of `r`. -/
def pad_cell (padId padLen : Nat) (h : Heap) (r : Nat) : Heap :=
  h.set r (deref h r ++ List.replicate padLen padId)

/-- Heap-level embedding of the `for x, y in zip(X, Y)` body of
`_add_padding`: the pad length is read from the current length of the input
cell; both the input and the label cell are extended in place. -/
def add_padding_loop (padId maxL : Nat) : Heap → List (Nat × Nat) → Heap
  | h, [] => h
  | h, (rx, ry) :: rest =>
      let padLen := maxL - (deref h rx).length
      add_padding_loop padId maxL (pad_cell padId padLen (pad_cell padId padLen h rx) ry) rest

/-- Heap-level embedding of the labelled branch of `_add_padding`. -/
def add_padding_heap (padId : Nat) (h : Heap) (xs ys : List Nat) : Heap :=
  add_padding_loop padId (heap_max_len h xs) h (xs.zip ys)

/-- Modelled from the spec: `BatchGenerator` (module `langdist.batch`, whose
source is not under `src/`); spec §3 Encoded Sequence: "Never shared mutably
across batches — each batch's sequences are independent copies".  Handing a
batch to the loop allocates a fresh cell copying each of its sequences. -/
def copy_batch : Heap → List Nat → Heap × List Nat
  | h, [] => (h, [])
  | h, r :: rest =>
      let t := copy_batch (h ++ [deref h r]) rest
      (t.1, h.length :: t.2)

/-- One training batch as run by `train`: copy the batch's sequences (the
modelled batcher), run `_create_Y` on the copies, then `_add_padding` on the
copies and the fresh labels.  Returns the final heap, the batch's input
references and its label references. -/
def batch_pipeline (border padId : Nat) (h : Heap) (refs : List Nat) :
    Heap × List Nat × List Nat :=
  let c := copy_batch h refs
  let cy := create_Y_heap border c.1 c.2
  (add_padding_heap padId cy.1 c.2 cy.2, c.2, cy.2)

theorem deref_append (h hs : Heap) (q : Nat) (hq : q < h.length) :
    deref (h ++ hs) q = deref h q := by
  unfold deref
  have hq2 : q < (h ++ hs).length := by
    rw [List.length_append]
    omega
  rw [List.getD_eq_getElem _ _ hq2, List.getElem_append_left hq, List.getD_eq_getElem _ _ hq]

theorem deref_set_ne (h : Heap) (r : Nat) (v : List Nat) (q : Nat) (hq : q ≠ r) :
    deref (h.set r v) q = deref h q := by
  unfold deref
  simp only [List.getD_eq_getElem?_getD]
  rw [List.getElem?_set_ne (fun he => hq he.symm)]

theorem create_Y_cell_length (border : Nat) (h : Heap) (r : Nat) :
    (create_Y_cell border h r).1.length = h.length + 1 := by
  simp [create_Y_cell]

theorem create_Y_cell_frame (border : Nat) (h : Heap) (r : Nat) (q : Nat)
    (hq : q ≠ r) (hlt : q < h.length) :
    deref (create_Y_cell border h r).1 q = deref h q := by
  unfold create_Y_cell
  rw [deref_set_ne _ _ _ _ hq, deref_append _ _ _ hlt]

theorem create_Y_heap_spec (border : Nat) :
    ∀ (xs : List Nat) (h : Heap),
      h.length ≤ (create_Y_heap border h xs).1.length ∧
      (∀ q, q ∉ xs → q < h.length → deref (create_Y_heap border h xs).1 q = deref h q) ∧
      (∀ y ∈ (create_Y_heap border h xs).2,
        h.length ≤ y ∧ y < (create_Y_heap border h xs).1.length) := by
  intro xs
  induction xs with
  | nil => exact fun h => ⟨le_refl _, fun q _ _ => rfl, by simp [create_Y_heap]⟩
  | cons r rest ih =>
      intro h
      have hcell := create_Y_cell_length border h r
      obtain ⟨ihlen, ihframe, ihy⟩ := ih (create_Y_cell border h r).1
      have hgrow : h.length ≤ (create_Y_heap border (create_Y_cell border h r).1 rest).1.length := by
        rw [hcell] at ihlen
        omega
      refine ⟨?_, ?_, ?_⟩
      · simpa [create_Y_heap] using hgrow
      · intro q hq hlt
        simp only [List.mem_cons, not_or] at hq
        show deref (create_Y_heap border (create_Y_cell border h r).1 rest).1 q = deref h q
        rw [ihframe q hq.2 (by rw [hcell]; omega), create_Y_cell_frame border h r q hq.1 hlt]
      · intro y hy
        simp only [create_Y_heap, List.mem_cons] at hy
        rcases hy with rfl | hy
        · constructor
          · show h.length ≤ (create_Y_cell border h r).2
            simp [create_Y_cell]
          · show (create_Y_cell border h r).2 <
              (create_Y_heap border (create_Y_cell border h r).1 rest).1.length
            have : (create_Y_cell border h r).2 = h.length := rfl
            rw [this]
            rw [hcell] at ihlen
            omega
        · obtain ⟨h1, h2⟩ := ihy y hy
          exact ⟨by rw [hcell] at h1; omega, h2⟩

theorem add_padding_loop_frame (padId maxL : Nat) :
    ∀ (prs : List (Nat × Nat)) (h : Heap) (q : Nat),
      q ∉ prs.map Prod.fst → q ∉ prs.map Prod.snd →
      deref (add_padding_loop padId maxL h prs) q = deref h q := by
  intro prs
  induction prs with
  | nil => intro h q _ _; rfl
  | cons pr rest ih =>
      intro h q hq1 hq2
      obtain ⟨rx, ry⟩ := pr
      simp only [List.map_cons, List.mem_cons, not_or] at hq1 hq2
      show deref (add_padding_loop padId maxL _ rest) q = deref h q
      rw [ih _ q hq1.2 hq2.2]
      unfold pad_cell
      rw [deref_set_ne _ _ _ _ hq2.1, deref_set_ne _ _ _ _ hq1.1]

theorem copy_batch_spec :
    ∀ (refs : List Nat) (h : Heap),
      h.length ≤ (copy_batch h refs).1.length ∧
      (∀ q, q < h.length → deref (copy_batch h refs).1 q = deref h q) ∧
      (∀ b ∈ (copy_batch h refs).2, h.length ≤ b ∧ b < (copy_batch h refs).1.length) := by
  intro refs
  induction refs with
  | nil => exact fun h => ⟨le_refl _, fun q _ => rfl, by simp [copy_batch]⟩
  | cons r rest ih =>
      intro h
      obtain ⟨ihlen, ihframe, ihb⟩ := ih (h ++ [deref h r])
      have happ : (h ++ [deref h r]).length = h.length + 1 := by simp
      refine ⟨?_, ?_, ?_⟩
      · show h.length ≤ (copy_batch (h ++ [deref h r]) rest).1.length
        rw [happ] at ihlen
        omega
      · intro q hq
        show deref (copy_batch (h ++ [deref h r]) rest).1 q = deref h q
        rw [ihframe q (by rw [happ]; omega), deref_append _ _ _ hq]
      · intro b hb
        simp only [copy_batch, List.mem_cons] at hb
        rcases hb with rfl | hb
        · refine ⟨le_refl _, ?_⟩
          show h.length < (copy_batch (h ++ [deref h r]) rest).1.length
          rw [happ] at ihlen
          omega
        · obtain ⟨h1, h2⟩ := ihb b hb
          exact ⟨by rw [happ] at h1; omega, h2⟩

/-- C6 counterexample: `_create_Y` prepends the terminator to the
caller-supplied sequence object in place.  Running the heap-level `_create_Y`
on a heap whose cell 0 holds `[5, 6]` (terminator ID 9) leaves cell 0 holding
`[9, 5, 6]`: the original object supplied by the caller has changed. -/
theorem create_Y_mutates_caller_cell :
    deref (create_Y_heap 9 [[5, 6]] [0]).1 0 = [9, 5, 6] ∧
    deref ([[5, 6]] : Heap) 0 = [5, 6] ∧
    ([9, 5, 6] : List Nat) ≠ [5, 6] :=
  ⟨rfl, rfl, by decide⟩

/-- C6 amended.  `_create_Y` and `_add_padding` mutate the sequence objects
passed to them in place (terminator prepended to the input object, labels
allocated as fresh copies, padding appended in place); because the batcher
hands each batch fresh copies of its sequences (spec §3, modelled by
`copy_batch`), every cell that existed before the batch — the caller's
original encoded sequences and all cells of earlier batches — is unchanged by
the batch pipeline, and the batch's input and label references are all fresh,
so no sequence object is shared mutably across batches. -/
theorem batch_pipeline_frame (border padId : Nat) (h : Heap) (refs : List Nat)
    (r : Nat) (hr : r < h.length) :
    deref (batch_pipeline border padId h refs).1 r = deref h r ∧
    (∀ b ∈ (batch_pipeline border padId h refs).2.1, h.length ≤ b) ∧
    (∀ y ∈ (batch_pipeline border padId h refs).2.2, h.length ≤ y) := by
  obtain ⟨clen, cframe, cb⟩ := copy_batch_spec refs h
  obtain ⟨ylen, yframe, yb⟩ := create_Y_heap_spec border (copy_batch h refs).2 (copy_batch h refs).1
  have hrc : r < (copy_batch h refs).1.length := by omega
  have hrnotb : r ∉ (copy_batch h refs).2 := fun hmem => by
    have := (cb r hmem).1
    omega
  have hrnoty : r ∉ (create_Y_heap border (copy_batch h refs).1 (copy_batch h refs).2).2 :=
    fun hmem => by
      have := (yb r hmem).1
      omega
  refine ⟨?_, ?_, ?_⟩
  · show deref (add_padding_heap padId _ (copy_batch h refs).2
      (create_Y_heap border (copy_batch h refs).1 (copy_batch h refs).2).2) r = deref h r
    unfold add_padding_heap
    have hfst : r ∉ ((copy_batch h refs).2.zip
        (create_Y_heap border (copy_batch h refs).1 (copy_batch h refs).2).2).map Prod.fst := by
      intro hmem
      obtain ⟨pr, hpr, hpre⟩ := List.mem_map.mp hmem
      obtain ⟨a, b⟩ := pr
      exact hrnotb (hpre ▸ (List.of_mem_zip hpr).1)
    have hsnd : r ∉ ((copy_batch h refs).2.zip
        (create_Y_heap border (copy_batch h refs).1 (copy_batch h refs).2).2).map Prod.snd := by
      intro hmem
      obtain ⟨pr, hpr, hpre⟩ := List.mem_map.mp hmem
      obtain ⟨a, b⟩ := pr
      exact hrnoty (hpre ▸ (List.of_mem_zip hpr).2)
    rw [add_padding_loop_frame _ _ _ _ r hfst hsnd, yframe r hrnotb hrc, cframe r hr]
  · exact fun b hb => (cb b hb).1
  · exact fun y hy => le_trans clen (yb y hy).1

/-- Witness for the amended C6: a heap holding two pre-existing sequences,
a batch over the second one; the first cell is untouched and the batch's
references are fresh. -/
theorem batch_pipeline_frame_witness :
    deref (batch_pipeline 9 0 [[1, 2], [3]] [1]).1 0 = deref ([[1, 2], [3]] : Heap) 0 ∧
    (∀ b ∈ (batch_pipeline 9 0 [[1, 2], [3]] [1]).2.1, ([[1, 2], [3]] : Heap).length ≤ b) ∧
    (∀ y ∈ (batch_pipeline 9 0 [[1, 2], [3]] [1]).2.2, ([[1, 2], [3]] : Heap).length ≤ y) :=
  batch_pipeline_frame 9 0 [[1, 2], [3]] [1] 0 (by decide)

end Langdist
